import Mathlib

/-!
Verification development for the 2D mesh benchmark harness
(mesh_bench_harness.py, adapter_spade.py).

Shallow embedding conventions:
* Python floats are modeled as exact real numbers (ℝ) inside the geometry
  pipeline (compute_mesh_quality), and as exact rationals (ℚ) in the parts of
  the code that only move numeric data around (timings, testcase parsing,
  result records), so that those parts stay executable.
* `float('inf')` values produced by the aspect-ratio computation are modeled
  by ⊤ in EReal (extended reals), which also gives the arithmetic numpy uses
  on inf (inf + x = inf, inf / n = inf for n > 0).
* Python exceptions are modeled with `Except String`.
-/

namespace MeshBench

/-- A mesh vertex: a 3D point (x, y, z); the harness stores z = 0 for 2D
input but compute_mesh_quality accepts any 3D coordinates. -/
def Point : Type := ℝ × ℝ × ℝ

/-- A triangle: three indices into the point sequence. -/
def Tri : Type := ℕ × ℕ × ℕ

/-- Componentwise difference a - b of two 3D points (numpy `p1 - p0`). -/
noncomputable def psub (a b : Point) : Point :=
  (a.1 - b.1, a.2.1 - b.2.1, a.2.2 - b.2.2)

/-- Squared Euclidean norm of a 3D vector. -/
noncomputable def normSq (v : Point) : ℝ := v.1 ^ 2 + v.2.1 ^ 2 + v.2.2 ^ 2

/-- Euclidean norm of a 3D vector (`np.linalg.norm`). -/
noncomputable def norm3 (v : Point) : ℝ := Real.sqrt (normSq v)

/-- `np.clip(x, -1, 1)`. -/
noncomputable def clip (x : ℝ) : ℝ := min (max x (-1)) 1

/-- `np.degrees`: radians to degrees. -/
noncomputable def degrees (x : ℝ) : ℝ := x * 180 / Real.pi

/-- Triangle area from the harness:
`0.5 * abs(e0[0] * (-e2[1]) - e0[1] * (-e2[0]))` with `e0 = p1 - p0` and
`e2 = p0 - p2`. -/
noncomputable def triAreaOf (p0 p1 p2 : Point) : ℝ :=
  0.5 * |(psub p1 p0).1 * (-(psub p0 p2).2.1) - (psub p1 p0).2.1 * (-(psub p0 p2).1)|

/-- The guard `l0 > 0 and l1 > 0 and l2 > 0` of the harness: all three edge
lengths are positive. -/
noncomputable def allEdgesPosOf (p0 p1 p2 : Point) : Prop :=
  0 < norm3 (psub p1 p0) ∧ 0 < norm3 (psub p2 p1) ∧ 0 < norm3 (psub p0 p2)

/-- Some edge of the triangle has length exactly 0. -/
noncomputable def hasZeroEdgeOf (p0 p1 p2 : Point) : Prop :=
  norm3 (psub p1 p0) = 0 ∨ norm3 (psub p2 p1) = 0 ∨ norm3 (psub p0 p2) = 0

/-- Minimum interior angle in degrees, via the law of cosines with the
cosine arguments clipped to [-1, 1], exactly as in the harness. -/
noncomputable def minAngleDegOf (p0 p1 p2 : Point) : ℝ :=
  let l0 := norm3 (psub p1 p0)
  let l1 := norm3 (psub p2 p1)
  let l2 := norm3 (psub p0 p2)
  let angle0 := Real.arccos (clip ((l0 ^ 2 + l2 ^ 2 - l1 ^ 2) / (2 * l0 * l2)))
  let angle1 := Real.arccos (clip ((l0 ^ 2 + l1 ^ 2 - l2 ^ 2) / (2 * l0 * l1)))
  let angle2 := Real.arccos (clip ((l1 ^ 2 + l2 ^ 2 - l0 ^ 2) / (2 * l1 * l2)))
  degrees (min (min angle0 angle1) angle2)

/-- Aspect ratio from the harness: longest edge over shortest altitude, where
`min_altitude = 2 * area / max(l0, l1, l2)`; `float('inf')` (here ⊤ : EReal)
when the altitude is not positive. -/
noncomputable def aspectRatioOf (p0 p1 p2 : Point) : EReal :=
  let l0 := norm3 (psub p1 p0)
  let l1 := norm3 (psub p2 p1)
  let l2 := norm3 (psub p0 p2)
  let area := triAreaOf p0 p1 p2
  let min_altitude := 2 * area / max l0 (max l1 l2)
  let max_edge := max l0 (max l1 l2)
  if 0 < min_altitude then ((max_edge / min_altitude : ℝ) : EReal) else ⊤

noncomputable instance allEdgesPosOf.dec (p0 p1 p2 : Point) :
    Decidable (allEdgesPosOf p0 p1 p2) := by
  unfold allEdgesPosOf
  infer_instance

/-- Index lookup into the point sequence. The harness uses numpy indexing
`points_np[tri[k]]`, which raises IndexError out of bounds; compute_mesh_quality
below only reaches these lookups under its bounds check, where `getD` agrees
with numpy indexing. -/
noncomputable def pt (ps : List Point) (i : ℕ) : Point := ps.getD i (0, 0, 0)

/-- Every triangle index is within bounds of the point sequence. -/
def validIdx (ps : List Point) (ts : List Tri) : Prop :=
  ∀ t ∈ ts, t.1 < ps.length ∧ t.2.1 < ps.length ∧ t.2.2 < ps.length

instance validIdx.dec (ps : List Point) (ts : List Tri) : Decidable (validIdx ps ts) :=
  List.decidableBAll _ ts

/-- The `areas` list of compute_mesh_quality: one area per triangle,
appended before the degenerate-edge guard. -/
noncomputable def areaList (ps : List Point) (ts : List Tri) : List ℝ :=
  ts.map (fun t => triAreaOf (pt ps t.1) (pt ps t.2.1) (pt ps t.2.2))

/-- The `min_angles` list of compute_mesh_quality: only triangles passing the
`l0 > 0 and l1 > 0 and l2 > 0` guard contribute. -/
noncomputable def angleList (ps : List Point) (ts : List Tri) : List ℝ :=
  ts.filterMap (fun t =>
    if allEdgesPosOf (pt ps t.1) (pt ps t.2.1) (pt ps t.2.2) then
      some (minAngleDegOf (pt ps t.1) (pt ps t.2.1) (pt ps t.2.2))
    else none)

/-- The `aspect_ratios` list of compute_mesh_quality: appended in the same
guarded block as the angles. -/
noncomputable def aspectList (ps : List Point) (ts : List Tri) : List EReal :=
  ts.filterMap (fun t =>
    if allEdgesPosOf (pt ps t.1) (pt ps t.2.1) (pt ps t.2.2) then
      some (aspectRatioOf (pt ps t.1) (pt ps t.2.1) (pt ps t.2.2))
    else none)

/-- `np.min` over a nonempty list (the value on [] is never used: the report
guards every use with a length check, as the code does). -/
noncomputable def listMinR : List ℝ → ℝ
  | [] => 0
  | x :: xs => xs.foldl min x

/-- `np.max` over a nonempty list. -/
noncomputable def listMaxR : List ℝ → ℝ
  | [] => 0
  | x :: xs => xs.foldl max x

/-- `np.mean`: arithmetic mean. -/
noncomputable def meanR (l : List ℝ) : ℝ := l.sum / l.length

/-- `np.median`: middle element of the sorted data for odd length, average of
the two middle elements for even length. -/
noncomputable def medianR (l : List ℝ) : ℝ :=
  let s := l.insertionSort (· ≤ ·)
  if l.length % 2 = 1 then s.getD (l.length / 2) 0
  else (s.getD (l.length / 2 - 1) 0 + s.getD (l.length / 2) 0) / 2

/-- `np.min` over a nonempty list of extended reals. -/
noncomputable def listMinE : List EReal → EReal
  | [] => 0
  | x :: xs => xs.foldl min x

/-- `np.max` over a nonempty list of extended reals. -/
noncomputable def listMaxE : List EReal → EReal
  | [] => 0
  | x :: xs => xs.foldl max x

/-- `np.mean` over extended reals (a list containing inf has mean inf). -/
noncomputable def meanE (l : List EReal) : EReal := l.sum / ((l.length : ℝ) : EReal)

/-- `np.median` over extended reals. -/
noncomputable def medianE (l : List EReal) : EReal :=
  let s := l.insertionSort (· ≤ ·)
  if l.length % 2 = 1 then s.getD (l.length / 2) 0
  else (s.getD (l.length / 2 - 1) 0 + s.getD (l.length / 2) 0) / 2

/-- `np.histogram` with an explicit ordered edge list: every bucket is
left-closed right-open, except the final bucket which is closed at its upper
edge. Values outside [first edge, last edge] are not counted. -/
def histCounts {α : Type} [LinearOrder α] : List α → List α → List ℕ
  | a :: b :: c :: rest, vs =>
      vs.countP (fun v => decide (a ≤ v ∧ v < b)) :: histCounts (b :: c :: rest) vs
  | [a, b], vs => [vs.countP (fun v => decide (a ≤ v ∧ v ≤ b))]
  | _, _ => []

/-- The fixed angle bucket edges of the harness (degrees). -/
noncomputable def angle_bins : List ℝ := [0, 10, 20, 30, 40, 50, 60, 90]

/-- The fixed aspect-ratio bucket edges of the harness; `np.inf` is ⊤. -/
noncomputable def ar_bins : List EReal :=
  [((1:ℝ) : EReal), ((2:ℝ) : EReal), ((5:ℝ) : EReal), ((10:ℝ) : EReal),
   ((20:ℝ) : EReal), ((50:ℝ) : EReal), ((100:ℝ) : EReal), ⊤]

/-- min/max/mean/median block of the quality report. -/
structure Stats (α : Type) where
  min : α
  max : α
  mean : α
  median : α

/-- The dictionary returned by compute_mesh_quality. -/
structure QualityReport where
  num_triangles : ℕ
  total_area : ℝ
  min_angle_stats : Stats ℝ
  min_angle_distribution : List ℕ
  aspect_ratio_stats : Stats EReal
  aspect_ratio_distribution : List ℕ
  area_stats : Stats ℝ

/-- The report dictionary of compute_mesh_quality, with every statistic
guarded by the code's `if len(...) > 0 else 0` conditionals. -/
noncomputable def mkQualityReport (ps : List Point) (ts : List Tri) : QualityReport :=
  let min_angles := angleList ps ts
  let aspect_ratios := aspectList ps ts
  let areas := areaList ps ts
  { num_triangles := ts.length
    total_area := areas.sum
    min_angle_stats :=
      { min := if 0 < min_angles.length then listMinR min_angles else 0
        max := if 0 < min_angles.length then listMaxR min_angles else 0
        mean := if 0 < min_angles.length then meanR min_angles else 0
        median := if 0 < min_angles.length then medianR min_angles else 0 }
    min_angle_distribution := histCounts angle_bins min_angles
    aspect_ratio_stats :=
      { min := if 0 < aspect_ratios.length then listMinE aspect_ratios else 0
        max := if 0 < aspect_ratios.length then listMaxE aspect_ratios else 0
        mean := if 0 < aspect_ratios.length then meanE aspect_ratios else 0
        median := if 0 < aspect_ratios.length then medianE aspect_ratios else 0 }
    aspect_ratio_distribution := histCounts ar_bins aspect_ratios
    area_stats :=
      { min := if 0 < areas.length then listMinR areas else 0
        max := if 0 < areas.length then listMaxR areas else 0
        mean := if 0 < areas.length then meanR areas else 0
        median := if 0 < areas.length then medianR areas else 0 } }

/-- compute_mesh_quality. An out-of-bounds triangle index makes the numpy
lookup raise IndexError while iterating (the local metric lists never escape,
so no report is produced); this is modeled as an up-front error result. -/
noncomputable def compute_mesh_quality (ps : List Point) (ts : List Tri) :
    Except String QualityReport :=
  if validIdx ps ts then .ok (mkQualityReport ps ts)
  else .error "IndexError: triangle index out of bounds"

/-- C9 helper: the area expression is antisymmetric in swapping p1 and p2. -/
lemma triAreaOf_swap_arg (p0 p1 p2 : Point) :
    (psub p1 p0).1 * (-(psub p0 p2).2.1) - (psub p1 p0).2.1 * (-(psub p0 p2).1)
      = -((psub p2 p0).1 * (-(psub p0 p1).2.1) - (psub p2 p0).2.1 * (-(psub p0 p1).1)) := by
  simp only [psub]
  ring

/-- C9: the triangle area of the Geometry Metrics is non-negative and is
invariant under reversing the vertex order (p0, p1, p2) → (p0, p2, p1). -/
theorem claim_C9_area_nonneg_and_orientation_invariant (p0 p1 p2 : Point) :
    0 ≤ triAreaOf p0 p1 p2 ∧ triAreaOf p0 p1 p2 = triAreaOf p0 p2 p1 := by
  constructor
  · have h : (0:ℝ) ≤ |(psub p1 p0).1 * (-(psub p0 p2).2.1) -
        (psub p1 p0).2.1 * (-(psub p0 p2).1)| := abs_nonneg _
    unfold triAreaOf
    nlinarith
  · unfold triAreaOf
    rw [triAreaOf_swap_arg p0 p1 p2, abs_neg]

lemma normSq_nonneg (v : Point) : 0 ≤ normSq v := by
  unfold normSq
  positivity

lemma norm3_pos_iff (v : Point) : 0 < norm3 v ↔ 0 < normSq v := by
  unfold norm3
  exact Real.sqrt_pos

lemma norm3_eq_zero_iff (v : Point) : norm3 v = 0 ↔ normSq v = 0 := by
  unfold norm3
  rw [Real.sqrt_eq_zero (normSq_nonneg v)]

lemma normSq_eq_zero_iff (v : Point) :
    normSq v = 0 ↔ v.1 = 0 ∧ v.2.1 = 0 ∧ v.2.2 = 0 := by
  unfold normSq
  constructor
  · intro h
    have h1 : v.1 ^ 2 = 0 := by
      nlinarith [sq_nonneg v.1, sq_nonneg v.2.1, sq_nonneg v.2.2]
    have h2 : v.2.1 ^ 2 = 0 := by
      nlinarith [sq_nonneg v.1, sq_nonneg v.2.1, sq_nonneg v.2.2]
    have h3 : v.2.2 ^ 2 = 0 := by
      nlinarith [sq_nonneg v.1, sq_nonneg v.2.1, sq_nonneg v.2.2]
    exact ⟨sq_eq_zero_iff.mp h1, sq_eq_zero_iff.mp h2, sq_eq_zero_iff.mp h3⟩
  · rintro ⟨h1, h2, h3⟩
    rw [h1, h2, h3]
    ring

/-- The guard of the harness fails exactly on triangles with a zero-length
edge (edge lengths are never negative). -/
lemma not_allEdgesPos_iff (p0 p1 p2 : Point) :
    ¬ allEdgesPosOf p0 p1 p2 ↔ hasZeroEdgeOf p0 p1 p2 := by
  unfold allEdgesPosOf hasZeroEdgeOf
  have h0 := Real.sqrt_nonneg (normSq (psub p1 p0))
  have h1 := Real.sqrt_nonneg (normSq (psub p2 p1))
  have h2 := Real.sqrt_nonneg (normSq (psub p0 p2))
  unfold norm3 at h0 h1 h2 ⊢
  push_neg
  constructor
  · intro h
    rcases le_or_lt (Real.sqrt (normSq (psub p1 p0))) 0 with h' | h'
    · exact Or.inl (le_antisymm h' h0)
    · rcases le_or_lt (Real.sqrt (normSq (psub p2 p1))) 0 with h'' | h''
      · exact Or.inr (Or.inl (le_antisymm h'' h1))
      · exact Or.inr (Or.inr (le_antisymm (h h' h'') h2))
  · rintro (h | h | h) hp0 hp1
    · exact absurd h (ne_of_gt hp0)
    · exact absurd h (ne_of_gt hp1)
    · rw [h]

/-- A triangle with a zero-length edge has area exactly 0. -/
lemma area_zero_of_zero_edge (p0 p1 p2 : Point) (h : hasZeroEdgeOf p0 p1 p2) :
    triAreaOf p0 p1 p2 = 0 := by
  unfold triAreaOf
  rcases h with h | h | h
  · obtain ⟨hx, hy, -⟩ := (normSq_eq_zero_iff _).mp ((norm3_eq_zero_iff _).mp h)
    simp only [psub] at hx hy ⊢
    rw [hx, hy]
    ring_nf
    simp
  · obtain ⟨hx, hy, -⟩ := (normSq_eq_zero_iff _).mp ((norm3_eq_zero_iff _).mp h)
    simp only [psub] at hx hy ⊢
    have hz : (p1.1 - p0.1) * -(p0.2.1 - p2.2.1) - (p1.2.1 - p0.2.1) * -(p0.1 - p2.1) = 0 := by
      linear_combination (p1.1 - p0.1) * hy - (p1.2.1 - p0.2.1) * hx
    rw [hz]
    simp
  · obtain ⟨hx, hy, -⟩ := (normSq_eq_zero_iff _).mp ((norm3_eq_zero_iff _).mp h)
    simp only [psub] at hx hy ⊢
    rw [hx, hy]
    ring_nf
    simp

/-- Length of a guarded filterMap is a countP of the guard. -/
lemma length_filterMap_guard {α β : Type} (p : α → Prop) [DecidablePred p]
    (f : α → β) (l : List α) :
    (l.filterMap (fun a => if p a then some (f a) else none)).length
      = l.countP (fun a => decide (p a)) := by
  induction l with
  | nil => rfl
  | cons a l ih =>
    by_cases h : p a <;>
      simp [List.filterMap_cons, h, List.countP_cons, ih]

/-- C2: a triangle with a zero-length edge is excluded from the minimum-angle
sequence but its area (0) is still appended to the area sequence: the area
sequence has exactly one entry per triangle, and the angle sequence counts
exactly the triangles passing the positive-edge-length guard. -/
theorem claim_C2_degenerate_edge_policy (ps : List Point) (ts : List Tri)
    (h : validIdx ps ts) :
    (areaList ps ts).length = ts.length ∧
    (angleList ps ts).length
      = ts.countP (fun t => decide (allEdgesPosOf (pt ps t.1) (pt ps t.2.1) (pt ps t.2.2))) ∧
    (angleList ps ts).length ≤ ts.length ∧
    ∀ t ∈ ts, hasZeroEdgeOf (pt ps t.1) (pt ps t.2.1) (pt ps t.2.2) →
      ¬ allEdgesPosOf (pt ps t.1) (pt ps t.2.1) (pt ps t.2.2) ∧
      triAreaOf (pt ps t.1) (pt ps t.2.1) (pt ps t.2.2) = 0 := by
  refine ⟨List.length_map _ _, ?_, ?_, ?_⟩
  · exact length_filterMap_guard _ _ ts
  · unfold angleList
    rw [length_filterMap_guard _ _ ts]
    exact List.countP_le_length _
  · intro t _ hzero
    exact ⟨(not_allEdgesPos_iff _ _ _).mpr hzero, area_zero_of_zero_edge _ _ _ hzero⟩

/-- A mesh with one triangle all of whose vertices coincide. -/
noncomputable def degPts : List Point := [(0, 0, 0)]

/-- The single (degenerate) triangle of the degPts mesh. -/
def degTris : List Tri := [(0, 0, 0)]

theorem claim_C2_witness :
    validIdx degPts degTris ∧ (areaList degPts degTris).length = degTris.length :=
  ⟨by decide, (claim_C2_degenerate_edge_policy degPts degTris (by decide)).1⟩

lemma countP_disjoint_union {α : Type} (p q r : α → Prop)
    [DecidablePred p] [DecidablePred q] [DecidablePred r] (l : List α)
    (hpq : ∀ a, r a ↔ p a ∨ q a) (hd : ∀ a, ¬ (p a ∧ q a)) :
    l.countP (fun a => decide (p a)) + l.countP (fun a => decide (q a))
      = l.countP (fun a => decide (r a)) := by
  induction l with
  | nil => rfl
  | cons a l ih =>
    simp only [List.countP_cons, decide_eq_true_eq]
    by_cases hp : p a
    · have hq : ¬ q a := fun hq => hd a ⟨hp, hq⟩
      have hr : r a := (hpq a).mpr (Or.inl hp)
      simp only [hp, hq, hr, if_true, if_false]
      omega
    · by_cases hq : q a
      · have hr : r a := (hpq a).mpr (Or.inr hq)
        simp only [hp, hq, hr, if_true, if_false]
        omega
      · have hr : ¬ r a := fun hr => ((hpq a).mp hr).elim hp hq
        simp only [hp, hq, hr, if_false]
        omega

lemma chain'_head_le_last {α : Type} [Preorder α] (x y : α) (xs : List α)
    (h : List.Chain' (· ≤ ·) (x :: xs ++ [y])) : x ≤ y := by
  induction xs generalizing x with
  | nil => exact (List.chain'_cons.mp h).1
  | cons z zs ih =>
    have h' := List.chain'_cons.mp h
    exact le_trans h'.1 (ih z h'.2)

lemma histCounts_cons₂ {α : Type} [LinearOrder α] (a b : α) (l : List α)
    (vs : List α) (h : l ≠ []) :
    histCounts (a :: b :: l) vs
      = vs.countP (fun v => decide (a ≤ v ∧ v < b)) :: histCounts (b :: l) vs := by
  cases l with
  | nil => exact absurd rfl h
  | cons c rest => rfl

/-- The bucket counts of a histogram over a sorted edge list sum to the number
of values lying between the first and the last edge (inclusive). -/
lemma histCounts_sum {α : Type} [LinearOrder α] (a b : α) (mid : List α)
    (vs : List α) (hc : List.Chain' (· ≤ ·) (a :: mid ++ [b])) :
    (histCounts (a :: mid ++ [b]) vs).sum
      = vs.countP (fun v => decide (a ≤ v ∧ v ≤ b)) := by
  induction mid generalizing a with
  | nil => simp [histCounts]
  | cons m mid ih =>
    simp only [List.cons_append] at hc ⊢
    have h' := List.chain'_cons.mp hc
    have ham : a ≤ m := h'.1
    have hmb : m ≤ b := chain'_head_le_last m b mid h'.2
    rw [histCounts_cons₂ a m (mid ++ [b]) vs (by simp)]
    have ihm := ih m h'.2
    simp only [List.cons_append] at ihm
    rw [List.sum_cons, ihm]
    exact countP_disjoint_union (fun v => a ≤ v ∧ v < m) (fun v => m ≤ v ∧ v ≤ b)
      (fun v => a ≤ v ∧ v ≤ b) vs
      (fun v => by
        constructor
        · rintro ⟨hav, hvb⟩
          rcases lt_or_le v m with hvm | hvm
          · exact Or.inl ⟨hav, hvm⟩
          · exact Or.inr ⟨hvm, hvb⟩
        · rintro (⟨hav, hvm⟩ | ⟨hmv, hvb⟩)
          · exact ⟨hav, le_trans hvm.le hmb⟩
          · exact ⟨le_trans ham hmv, hvb⟩)
      (fun v => by
        rintro ⟨⟨-, hvm⟩, ⟨hmv, -⟩⟩
        exact absurd hmv (not_le.mpr hvm))

lemma angle_bins_chain :
    List.Chain' (· ≤ ·) ((0:ℝ) :: ([10, 20, 30, 40, 50, 60] : List ℝ) ++ [90]) := by
  norm_num [List.chain'_cons, List.chain'_singleton]

lemma ar_bins_chain :
    List.Chain' (· ≤ ·)
      (((1:ℝ) : EReal) :: ([((2:ℝ) : EReal), ((5:ℝ) : EReal), ((10:ℝ) : EReal),
        ((20:ℝ) : EReal), ((50:ℝ) : EReal), ((100:ℝ) : EReal)]) ++ [⊤]) := by
  simp only [List.cons_append, List.nil_append, List.chain'_cons, List.chain'_singleton,
    and_true, le_top, EReal.coe_le_coe_iff]
  norm_num

/-- Every reported minimum angle lies in [0°, 90°]: the arccos of a clipped
cosine is in [0, π], and at least one of the three law-of-cosines numerators
is positive, forcing the minimum of the three angles below π/2. -/
lemma minAngleDeg_range (p0 p1 p2 : Point) (h : allEdgesPosOf p0 p1 p2) :
    0 ≤ minAngleDegOf p0 p1 p2 ∧ minAngleDegOf p0 p1 p2 ≤ 90 := by
  obtain ⟨hl0, hl1, hl2⟩ := h
  simp only [minAngleDegOf]
  set l0 := norm3 (psub p1 p0) with hl0def
  set l1 := norm3 (psub p2 p1) with hl1def
  set l2 := norm3 (psub p0 p2) with hl2def
  set a0 := Real.arccos (clip ((l0 ^ 2 + l2 ^ 2 - l1 ^ 2) / (2 * l0 * l2))) with ha0
  set a1 := Real.arccos (clip ((l0 ^ 2 + l1 ^ 2 - l2 ^ 2) / (2 * l0 * l1))) with ha1
  set a2 := Real.arccos (clip ((l1 ^ 2 + l2 ^ 2 - l0 ^ 2) / (2 * l1 * l2))) with ha2
  have hmin_nonneg : 0 ≤ min (min a0 a1) a2 :=
    le_min (le_min (Real.arccos_nonneg _) (Real.arccos_nonneg _)) (Real.arccos_nonneg _)
  constructor
  · unfold degrees
    have h180 : (0:ℝ) ≤ min (min a0 a1) a2 * 180 := by nlinarith
    exact div_nonneg h180 Real.pi_pos.le
  · have hclip_nonneg : ∀ x : ℝ, 0 < x → 0 ≤ clip x := by
      intro x hx
      unfold clip
      exact le_min (le_trans hx.le (le_max_left _ _)) (by norm_num)
    have hkey : min (min a0 a1) a2 ≤ Real.pi / 2 := by
      have hsum : 0 < l0 ^ 2 + l1 ^ 2 + l2 ^ 2 := by positivity
      have hcase : 0 < l0 ^ 2 + l2 ^ 2 - l1 ^ 2 ∨ 0 < l0 ^ 2 + l1 ^ 2 - l2 ^ 2 ∨
          0 < l1 ^ 2 + l2 ^ 2 - l0 ^ 2 := by
        by_contra hcon
        push_neg at hcon
        obtain ⟨h1, h2, h3⟩ := hcon
        nlinarith
      rcases hcase with hn | hn | hn
      · have harg : 0 < (l0 ^ 2 + l2 ^ 2 - l1 ^ 2) / (2 * l0 * l2) :=
          div_pos hn (by positivity)
        have : a0 ≤ Real.pi / 2 :=
          Real.arccos_le_pi_div_two.mpr (hclip_nonneg _ harg)
        exact le_trans (le_trans (min_le_left _ _) (min_le_left _ _)) this
      · have harg : 0 < (l0 ^ 2 + l1 ^ 2 - l2 ^ 2) / (2 * l0 * l1) :=
          div_pos hn (by positivity)
        have : a1 ≤ Real.pi / 2 :=
          Real.arccos_le_pi_div_two.mpr (hclip_nonneg _ harg)
        exact le_trans (le_trans (min_le_left _ _) (min_le_right _ _)) this
      · have harg : 0 < (l1 ^ 2 + l2 ^ 2 - l0 ^ 2) / (2 * l1 * l2) :=
          div_pos hn (by positivity)
        have : a2 ≤ Real.pi / 2 :=
          Real.arccos_le_pi_div_two.mpr (hclip_nonneg _ harg)
        exact le_trans (min_le_right _ _) this
    unfold degrees
    rw [div_le_iff Real.pi_pos]
    nlinarith [Real.pi_pos]

/-- Every reported aspect ratio is at least 1: the longest edge squared
dominates twice the area (Cauchy-Schwarz in the xy-plane), and the infinite
branch is trivially at least 1. -/
lemma one_le_aspectRatioOf (p0 p1 p2 : Point) (h : allEdgesPosOf p0 p1 p2) :
    ((1:ℝ) : EReal) ≤ aspectRatioOf p0 p1 p2 := by
  obtain ⟨hl0, hl1, hl2⟩ := h
  simp only [aspectRatioOf]
  set l0 := norm3 (psub p1 p0) with hl0def
  set l1 := norm3 (psub p2 p1) with hl1def
  set l2 := norm3 (psub p0 p2) with hl2def
  set M := max l0 (max l1 l2) with hMdef
  set area := triAreaOf p0 p1 p2 with hareadef
  by_cases halt : 0 < 2 * area / M
  · rw [if_pos halt, EReal.coe_le_coe_iff]
    have hM : 0 < M := lt_of_lt_of_le hl0 (le_max_left _ _)
    have harea : 0 < area := by
      rcases (div_pos_iff.mp halt) with ⟨hnum, -⟩ | ⟨-, hden⟩
      · linarith
      · exact absurd hM (not_lt.mpr hden.le)
    rw [le_div_iff halt, one_mul, div_le_iff hM]
    -- it remains to show 2 * area ≤ M * M
    have hX : 2 * area
        = |(psub p1 p0).1 * (-(psub p0 p2).2.1) - (psub p1 p0).2.1 * (-(psub p0 p2).1)| := by
      rw [hareadef]
      unfold triAreaOf
      ring
    set X := (psub p1 p0).1 * (-(psub p0 p2).2.1) - (psub p1 p0).2.1 * (-(psub p0 p2).1)
      with hXdef
    have hcauchy : X ^ 2 ≤ normSq (psub p1 p0) * normSq (psub p0 p2) := by
      rw [hXdef]
      unfold normSq
      nlinarith [sq_nonneg ((psub p1 p0).1 * (psub p0 p2).1 + (psub p1 p0).2.1 * (psub p0 p2).2.1),
        sq_nonneg (psub p1 p0).2.2, sq_nonneg (psub p0 p2).2.2,
        mul_nonneg (add_nonneg (sq_nonneg (psub p1 p0).1) (sq_nonneg (psub p1 p0).2.1))
          (sq_nonneg (psub p0 p2).2.2),
        mul_nonneg (sq_nonneg (psub p1 p0).2.2)
          (add_nonneg (add_nonneg (sq_nonneg (psub p0 p2).1) (sq_nonneg (psub p0 p2).2.1))
            (sq_nonneg (psub p0 p2).2.2))]
    have hsq0 : l0 ^ 2 = normSq (psub p1 p0) := Real.sq_sqrt (normSq_nonneg _)
    have hsq2 : l2 ^ 2 = normSq (psub p0 p2) := Real.sq_sqrt (normSq_nonneg _)
    have hl0M : l0 ≤ M := le_max_left _ _
    have hl2M : l2 ≤ M := le_trans (le_max_right _ _) (le_max_right _ _)
    have hMX : X ^ 2 ≤ (M * M) ^ 2 := by
      have h1 : normSq (psub p1 p0) ≤ M ^ 2 := by
        rw [← hsq0]
        exact pow_le_pow_left hl0.le hl0M 2
      have h2 : normSq (psub p0 p2) ≤ M ^ 2 := by
        rw [← hsq2]
        exact pow_le_pow_left hl2.le hl2M 2
      have hM2 : (0:ℝ) ≤ M ^ 2 := sq_nonneg M
      calc X ^ 2 ≤ normSq (psub p1 p0) * normSq (psub p0 p2) := hcauchy
        _ ≤ M ^ 2 * M ^ 2 := by
            apply mul_le_mul h1 h2 (normSq_nonneg _) hM2
        _ = (M * M) ^ 2 := by ring
    have habs : |X| ≤ M * M := by
      calc |X| = Real.sqrt (X ^ 2) := (Real.sqrt_sq_eq_abs X).symm
        _ ≤ Real.sqrt ((M * M) ^ 2) := Real.sqrt_le_sqrt hMX
        _ = M * M := Real.sqrt_sq (by positivity)
    linarith [hX ▸ habs]
  · rw [if_neg halt]
    exact le_top

lemma angleList_mem_range (ps : List Point) (ts : List Tri) :
    ∀ v ∈ angleList ps ts, 0 ≤ v ∧ v ≤ 90 := by
  intro v hv
  unfold angleList at hv
  obtain ⟨t, -, heq⟩ := List.mem_filterMap.mp hv
  by_cases hg : allEdgesPosOf (pt ps t.1) (pt ps t.2.1) (pt ps t.2.2)
  · rw [if_pos hg, Option.some_inj] at heq
    rw [← heq]
    exact minAngleDeg_range _ _ _ hg
  · rw [if_neg hg] at heq
    exact absurd heq (Option.noConfusion)

lemma aspectList_mem_range (ps : List Point) (ts : List Tri) :
    ∀ v ∈ aspectList ps ts, ((1:ℝ) : EReal) ≤ v ∧ v ≤ ⊤ := by
  intro v hv
  unfold aspectList at hv
  obtain ⟨t, -, heq⟩ := List.mem_filterMap.mp hv
  by_cases hg : allEdgesPosOf (pt ps t.1) (pt ps t.2.1) (pt ps t.2.2)
  · rw [if_pos hg, Option.some_inj] at heq
    rw [← heq]
    exact ⟨one_le_aspectRatioOf _ _ _ hg, le_top⟩
  · rw [if_neg hg] at heq
    exact absurd heq (Option.noConfusion)

lemma angle_hist_sum (vs : List ℝ) (h : ∀ v ∈ vs, 0 ≤ v ∧ v ≤ 90) :
    (histCounts angle_bins vs).sum = vs.length := by
  have hshape : angle_bins = (0:ℝ) :: ([10, 20, 30, 40, 50, 60] : List ℝ) ++ [90] := rfl
  rw [hshape, histCounts_sum 0 90 _ vs angle_bins_chain]
  rw [List.countP_eq_length]
  intro v hv
  simpa using h v hv

lemma ar_hist_sum (vs : List EReal) (h : ∀ v ∈ vs, ((1:ℝ) : EReal) ≤ v ∧ v ≤ ⊤) :
    (histCounts ar_bins vs).sum = vs.length := by
  have hshape : ar_bins = ((1:ℝ) : EReal) :: ([((2:ℝ) : EReal), ((5:ℝ) : EReal),
      ((10:ℝ) : EReal), ((20:ℝ) : EReal), ((50:ℝ) : EReal), ((100:ℝ) : EReal)]) ++ [⊤] := rfl
  rw [hshape, histCounts_sum _ _ _ vs ar_bins_chain]
  rw [List.countP_eq_length]
  intro v hv
  simpa using h v hv

/-- C3: the histogram bucket counts over the fixed bucket edges sum exactly to
the length of the aggregated value sequence, for both the angle and the
aspect-ratio distributions, and to 0 for an empty mesh. -/
theorem claim_C3_histogram_sums (ps : List Point) (ts : List Tri)
    (h : validIdx ps ts) :
    compute_mesh_quality ps ts = .ok (mkQualityReport ps ts) ∧
    (mkQualityReport ps ts).min_angle_distribution.sum = (angleList ps ts).length ∧
    (mkQualityReport ps ts).aspect_ratio_distribution.sum = (aspectList ps ts).length ∧
    (ts = [] → (mkQualityReport ps ts).min_angle_distribution.sum = 0 ∧
      (mkQualityReport ps ts).aspect_ratio_distribution.sum = 0) := by
  have hang : (mkQualityReport ps ts).min_angle_distribution
      = histCounts angle_bins (angleList ps ts) := rfl
  have har : (mkQualityReport ps ts).aspect_ratio_distribution
      = histCounts ar_bins (aspectList ps ts) := rfl
  have h1 : (histCounts angle_bins (angleList ps ts)).sum = (angleList ps ts).length :=
    angle_hist_sum _ (angleList_mem_range ps ts)
  have h2 : (histCounts ar_bins (aspectList ps ts)).sum = (aspectList ps ts).length :=
    ar_hist_sum _ (aspectList_mem_range ps ts)
  refine ⟨?_, ?_, ?_, ?_⟩
  · unfold compute_mesh_quality
    rw [if_pos h]
  · rw [hang, h1]
  · rw [har, h2]
  · intro hts
    subst hts
    refine ⟨?_, ?_⟩
    · rw [hang, h1]
      rfl
    · rw [har, h2]
      rfl

theorem claim_C3_witness :
    validIdx ([] : List Point) ([] : List Tri) ∧
    (mkQualityReport [] []).min_angle_distribution.sum = (angleList [] []).length :=
  ⟨by decide, (claim_C3_histogram_sums [] [] (by decide)).2.1⟩

/-- C10: the angle and aspect-ratio sequences always have exactly the same
length (both are collected under the same degenerate-edge guard), so the
aspect-ratio bucket counts sum to the number of non-degenerate triangles. -/
theorem claim_C10_aspect_seq_matches_angle_seq (ps : List Point) (ts : List Tri)
    (h : validIdx ps ts) :
    (angleList ps ts).length = (aspectList ps ts).length ∧
    (mkQualityReport ps ts).aspect_ratio_distribution.sum
      = ts.countP (fun t => decide (allEdgesPosOf (pt ps t.1) (pt ps t.2.1) (pt ps t.2.2))) := by
  have hlen1 : (angleList ps ts).length
      = ts.countP (fun t => decide (allEdgesPosOf (pt ps t.1) (pt ps t.2.1) (pt ps t.2.2))) :=
    length_filterMap_guard _ _ ts
  have hlen2 : (aspectList ps ts).length
      = ts.countP (fun t => decide (allEdgesPosOf (pt ps t.1) (pt ps t.2.1) (pt ps t.2.2))) :=
    length_filterMap_guard _ _ ts
  have har : (mkQualityReport ps ts).aspect_ratio_distribution
      = histCounts ar_bins (aspectList ps ts) := rfl
  refine ⟨hlen1.trans hlen2.symm, ?_⟩
  rw [har, ar_hist_sum _ (aspectList_mem_range ps ts), hlen2]

theorem claim_C10_witness :
    validIdx degPts degTris ∧ (angleList degPts degTris).length = (aspectList degPts degTris).length :=
  ⟨by decide, (claim_C10_aspect_seq_matches_angle_seq degPts degTris (by decide)).1⟩

/-- C7: on a mesh whose angle (resp. aspect-ratio) sequence is empty,
compute_mesh_quality succeeds and all four statistics of that sequence
report 0. -/
theorem claim_C7_empty_sequence_stats_zero (ps : List Point) (ts : List Tri)
    (h : validIdx ps ts) :
    compute_mesh_quality ps ts = .ok (mkQualityReport ps ts) ∧
    (angleList ps ts = [] →
      (mkQualityReport ps ts).min_angle_stats = ⟨0, 0, 0, 0⟩) ∧
    (aspectList ps ts = [] →
      (mkQualityReport ps ts).aspect_ratio_stats = ⟨0, 0, 0, 0⟩) := by
  refine ⟨?_, ?_, ?_⟩
  · unfold compute_mesh_quality
    rw [if_pos h]
  · intro he
    simp [mkQualityReport, he]
  · intro he
    simp [mkQualityReport, he]

theorem claim_C7_witness :
    validIdx degPts degTris ∧
    compute_mesh_quality degPts degTris = .ok (mkQualityReport degPts degTris) :=
  ⟨by decide, (claim_C7_empty_sequence_stats_zero degPts degTris (by decide)).1⟩

/-- For an equilateral planar triangle with squared side s, the magnitude of
the cross product expression used for the area equals √3 * s / 2. -/
lemma equilateral_cross_abs (x0 y0 x1 y1 x2 y2 s : ℝ)
    (h0 : (x1 - x0) ^ 2 + (y1 - y0) ^ 2 = s)
    (h1 : (x2 - x1) ^ 2 + (y2 - y1) ^ 2 = s)
    (h2 : (x0 - x2) ^ 2 + (y0 - y2) ^ 2 = s) :
    |(x1 - x0) * (-(y0 - y2)) - (y1 - y0) * (-(x0 - x2))| = Real.sqrt 3 * s / 2 := by
  have hs : 0 ≤ s := by nlinarith [sq_nonneg (x1 - x0), sq_nonneg (y1 - y0)]
  have hdot : (x1 - x0) * (x2 - x0) + (y1 - y0) * (y2 - y0) = s / 2 := by
    linear_combination (h0 + h2 - h1) / 2
  have h3 : Real.sqrt 3 ^ 2 = 3 := Real.sq_sqrt (by norm_num)
  have hX2 : ((x1 - x0) * (-(y0 - y2)) - (y1 - y0) * (-(x0 - x2))) ^ 2
      = (Real.sqrt 3 * s / 2) ^ 2 := by
    have hkey : ((x1 - x0) * (-(y0 - y2)) - (y1 - y0) * (-(x0 - x2))) ^ 2
        = 3 / 4 * s ^ 2 := by
      linear_combination ((x2 - x0) ^ 2 + (y2 - y0) ^ 2) * h0 + s * h2
        - ((x1 - x0) * (x2 - x0) + (y1 - y0) * (y2 - y0) + s / 2) * hdot
    rw [hkey]
    linear_combination (-(s ^ 2 / 4)) * h3
  calc |(x1 - x0) * (-(y0 - y2)) - (y1 - y0) * (-(x0 - x2))|
      = Real.sqrt (((x1 - x0) * (-(y0 - y2)) - (y1 - y0) * (-(x0 - x2))) ^ 2) :=
        (Real.sqrt_sq_eq_abs _).symm
    _ = Real.sqrt ((Real.sqrt 3 * s / 2) ^ 2) := by rw [hX2]
    _ = Real.sqrt 3 * s / 2 := Real.sqrt_sq (by positivity)

/-- The aspect ratio computed by the harness for a planar (z = 0) equilateral
triangle with positive edge length is 2√3/3 = 2/√3 ≈ 1.1547. -/
lemma aspect_equilateral (p0 p1 p2 : Point)
    (hz0 : p0.2.2 = 0) (hz1 : p1.2.2 = 0) (hz2 : p2.2.2 = 0)
    (h01 : norm3 (psub p1 p0) = norm3 (psub p2 p1))
    (h12 : norm3 (psub p2 p1) = norm3 (psub p0 p2))
    (hpos : 0 < norm3 (psub p1 p0)) :
    aspectRatioOf p0 p1 p2 = ((2 * Real.sqrt 3 / 3 : ℝ) : EReal) := by
  have hn01 : normSq (psub p1 p0) = normSq (psub p2 p1) := by
    unfold norm3 at h01
    exact (Real.sqrt_inj (normSq_nonneg _) (normSq_nonneg _)).mp h01
  have hn12 : normSq (psub p2 p1) = normSq (psub p0 p2) := by
    unfold norm3 at h12
    exact (Real.sqrt_inj (normSq_nonneg _) (normSq_nonneg _)).mp h12
  have hspos : 0 < normSq (psub p1 p0) := (norm3_pos_iff _).mp hpos
  have h0 : (p1.1 - p0.1) ^ 2 + (p1.2.1 - p0.2.1) ^ 2 = normSq (psub p1 p0) := by
    unfold normSq psub
    rw [hz0, hz1]
    ring
  have h1 : (p2.1 - p1.1) ^ 2 + (p2.2.1 - p1.2.1) ^ 2 = normSq (psub p1 p0) := by
    rw [hn01]
    unfold normSq psub
    rw [hz1, hz2]
    ring
  have h2 : (p0.1 - p2.1) ^ 2 + (p0.2.1 - p2.2.1) ^ 2 = normSq (psub p1 p0) := by
    rw [hn01, hn12]
    unfold normSq psub
    rw [hz0, hz2]
    ring
  have harea : triAreaOf p0 p1 p2
      = 0.5 * (Real.sqrt 3 * normSq (psub p1 p0) / 2) := by
    unfold triAreaOf
    simp only [psub]
    rw [equilateral_cross_abs p0.1 p0.2.1 p1.1 p1.2.1 p2.1 p2.2.1 _ h0 h1 h2]
    rfl
  have hL12 : norm3 (psub p2 p1) = norm3 (psub p1 p0) := h01.symm
  have hL20 : norm3 (psub p0 p2) = norm3 (psub p1 p0) := (h01.trans h12).symm
  simp only [aspectRatioOf]
  rw [hL12, hL20, max_self, max_self]
  have hLne : norm3 (psub p1 p0) ≠ 0 := ne_of_gt hpos
  have hL2 : norm3 (psub p1 p0) * norm3 (psub p1 p0) = normSq (psub p1 p0) := by
    unfold norm3
    exact Real.mul_self_sqrt (normSq_nonneg _)
  have h3 : Real.sqrt 3 ^ 2 = 3 := Real.sq_sqrt (by norm_num)
  have h3pos : 0 < Real.sqrt 3 := Real.sqrt_pos.mpr (by norm_num)
  have hminalt : 2 * triAreaOf p0 p1 p2 / norm3 (psub p1 p0)
      = Real.sqrt 3 / 2 * norm3 (psub p1 p0) := by
    rw [harea, ← hL2]
    field_simp
    ring
  rw [hminalt]
  have hpos' : 0 < Real.sqrt 3 / 2 * norm3 (psub p1 p0) :=
    mul_pos (by positivity) hpos
  rw [if_pos hpos']
  have hval : norm3 (psub p1 p0) / (Real.sqrt 3 / 2 * norm3 (psub p1 p0))
      = 2 * Real.sqrt 3 / 3 := by
    rw [div_eq_div_iff (by positivity) (by norm_num)]
    ring_nf
    nlinarith [h3]
  rw [hval]

/-- Vertex (0, 0, 0) of a concrete equilateral triangle with edge length 1. -/
noncomputable def eqA : Point := (0, 0, 0)

/-- Vertex (1, 0, 0) of the concrete equilateral triangle. -/
noncomputable def eqB : Point := (1, 0, 0)

/-- Vertex (1/2, √3/2, 0) of the concrete equilateral triangle. -/
noncomputable def eqC : Point := (1 / 2, Real.sqrt 3 / 2, 0)

lemma eq_norm01 : norm3 (psub eqB eqA) = 1 := by
  simp only [norm3, normSq, psub, eqA, eqB]
  rw [Real.sqrt_eq_one]
  norm_num

lemma eq_norm12 : norm3 (psub eqC eqB) = 1 := by
  have h3 : Real.sqrt 3 ^ 2 = 3 := Real.sq_sqrt (by norm_num)
  simp only [norm3, normSq, psub, eqB, eqC]
  rw [Real.sqrt_eq_one]
  ring_nf
  nlinarith [h3]

lemma eq_norm20 : norm3 (psub eqA eqC) = 1 := by
  have h3 : Real.sqrt 3 ^ 2 = 3 := Real.sq_sqrt (by norm_num)
  simp only [norm3, normSq, psub, eqA, eqC]
  rw [Real.sqrt_eq_one]
  ring_nf
  nlinarith [h3]

/-- C1 counterexample: the concrete unit equilateral triangle has aspect
ratio different from 1.0 (it is 2√3/3 ≈ 1.1547). -/
theorem claim_C1_counterexample :
    (norm3 (psub eqB eqA) = norm3 (psub eqC eqB) ∧
     norm3 (psub eqC eqB) = norm3 (psub eqA eqC) ∧
     0 < norm3 (psub eqB eqA)) ∧
    aspectRatioOf eqA eqB eqC ≠ ((1 : ℝ) : EReal) := by
  have heq1 : norm3 (psub eqB eqA) = norm3 (psub eqC eqB) :=
    eq_norm01.trans eq_norm12.symm
  have heq2 : norm3 (psub eqC eqB) = norm3 (psub eqA eqC) :=
    eq_norm12.trans eq_norm20.symm
  have hp : 0 < norm3 (psub eqB eqA) := by
    rw [eq_norm01]
    norm_num
  have hval := aspect_equilateral eqA eqB eqC rfl rfl rfl heq1 heq2 hp
  refine ⟨⟨heq1, heq2, hp⟩, ?_⟩
  rw [hval]
  intro hcontra
  rw [EReal.coe_eq_coe_iff] at hcontra
  have h3 : Real.sqrt 3 ^ 2 = 3 := Real.sq_sqrt (by norm_num)
  nlinarith [h3]

/-- C1 (amended): the aspect ratio computed by the Geometry Metrics for every
planar equilateral triangle with positive edge length equals 2√3/3 = 2/√3
≈ 1.1547 (the smallest attainable value), not 1.0. -/
theorem claim_C1_equilateral_aspect (p0 p1 p2 : Point)
    (hz0 : p0.2.2 = 0) (hz1 : p1.2.2 = 0) (hz2 : p2.2.2 = 0)
    (h01 : norm3 (psub p1 p0) = norm3 (psub p2 p1))
    (h12 : norm3 (psub p2 p1) = norm3 (psub p0 p2))
    (hpos : 0 < norm3 (psub p1 p0)) :
    aspectRatioOf p0 p1 p2 = ((2 * Real.sqrt 3 / 3 : ℝ) : EReal) :=
  aspect_equilateral p0 p1 p2 hz0 hz1 hz2 h01 h12 hpos

theorem claim_C1_witness :
    0 < norm3 (psub eqB eqA) ∧
    aspectRatioOf eqA eqB eqC = ((2 * Real.sqrt 3 / 3 : ℝ) : EReal) := by
  have hp : 0 < norm3 (psub eqB eqA) := by
    rw [eq_norm01]
    norm_num
  exact ⟨hp, claim_C1_equilateral_aspect eqA eqB eqC rfl rfl rfl
    (eq_norm01.trans eq_norm12.symm) (eq_norm12.trans eq_norm20.symm) hp⟩

/-- The default of the `repeats` parameter of run_benchmark. -/
def run_benchmark_default_repeats : ℕ := 3

/-- The comparison `elapsed < best_time` of run_benchmark, where `best_time`
starts at `float('inf')`, modeled as `none`. -/
def ltBest (x : ℚ) : Option ℚ → Bool
  | none => true
  | some b => decide (x < b)

/-- The timing loop of run_benchmark: each repeat either yields an elapsed
time and a result, or raises (Except.error), which aborts the remaining
repeats immediately. The accumulator is (best_time, best_result). -/
def benchLoop {α : Type} : List (Except String (ℚ × α)) → Option ℚ × Option α →
    Except String (Option ℚ × Option α)
  | [], acc => .ok acc
  | c :: cs, acc =>
    match c with
    | .error e => .error e
    | .ok (t, r) => benchLoop cs (if ltBest t acc.1 then (some t, some r) else acc)

/-- run_benchmark: runs the repeats through the timing loop and unpacks
`best_result`. Unpacking with zero repeats raises (best_result is None);
this is modeled as `.ok none`. -/
def run_benchmark {α : Type} (calls : List (Except String (ℚ × α))) :
    Except String (Option (α × ℚ)) :=
  match benchLoop calls (none, none) with
  | .error e => .error e
  | .ok (some t, some r) => .ok (some (r, t))
  | .ok _ => .ok none

/-- One iteration of the timing loop on a successful call. -/
def benchStep {α : Type} (acc : Option ℚ × Option α) (c : ℚ × α) : Option ℚ × Option α :=
  if ltBest c.1 acc.1 then (some c.1, some c.2) else acc

lemma benchLoop_map_ok {α : Type} (calls : List (ℚ × α)) (acc : Option ℚ × Option α) :
    benchLoop (calls.map Except.ok) acc = .ok (calls.foldl benchStep acc) := by
  induction calls generalizing acc with
  | nil => rfl
  | cons c cs ih => simp [benchLoop, benchStep, ih]

lemma benchFold_le {α : Type} (calls : List (ℚ × α)) (acc : Option ℚ × Option α)
    (b : ℚ) (hb : acc.1 = some b) :
    ∃ m, (calls.foldl benchStep acc).1 = some m ∧ m ≤ b := by
  induction calls generalizing acc b with
  | nil => exact ⟨b, hb, le_refl b⟩
  | cons c cs ih =>
    simp only [List.foldl_cons]
    by_cases h : ltBest c.1 acc.1
    · have hc : c.1 < b := by
        rw [hb] at h
        simpa [ltBest] using h
      obtain ⟨m, hm, hmb⟩ := ih (benchStep acc c) c.1 (by simp [benchStep, h])
      exact ⟨m, hm, le_trans hmb hc.le⟩
    · rw [hb] at h
      obtain ⟨m, hm, hmb⟩ := ih (benchStep acc c) b (by simp [benchStep, hb, h])
      exact ⟨m, hm, hmb⟩

lemma benchFold_min {α : Type} (calls : List (ℚ × α)) (acc : Option ℚ × Option α) :
    ∀ p ∈ calls, ∃ m, (calls.foldl benchStep acc).1 = some m ∧ m ≤ p.1 := by
  induction calls generalizing acc with
  | nil =>
    intro p hp
    cases hp
  | cons c cs ih =>
    intro p hp
    simp only [List.foldl_cons]
    rcases List.mem_cons.mp hp with heqp | hp'
    · have hm0 : ∃ m0, (benchStep acc c).1 = some m0 ∧ m0 ≤ c.1 := by
        by_cases h : ltBest c.1 acc.1
        · exact ⟨c.1, by simp [benchStep, h], le_refl _⟩
        · cases hacc : acc.1 with
          | none => exact absurd (by simp [ltBest, hacc]) h
          | some b =>
            rw [hacc] at h
            have hble : b ≤ c.1 := by
              by_contra hlt
              simp only [ltBest, decide_eq_true_eq] at h
              exact h (lt_of_not_le hlt)
            exact ⟨b, by simp [benchStep, hacc, h], hble⟩
      obtain ⟨m0, hm0eq, hm0le⟩ := hm0
      obtain ⟨m, hm, hmb⟩ := benchFold_le cs (benchStep acc c) m0 hm0eq
      refine ⟨m, hm, ?_⟩
      rw [heqp]
      exact le_trans hmb hm0le
    · exact ih (benchStep acc c) p hp'

lemma benchFold_provenance {α : Type} (calls : List (ℚ × α)) (acc : Option ℚ × Option α) :
    calls.foldl benchStep acc = acc ∨
    ∃ p ∈ calls, calls.foldl benchStep acc = (some p.1, some p.2) := by
  induction calls generalizing acc with
  | nil => exact Or.inl rfl
  | cons c cs ih =>
    simp only [List.foldl_cons]
    by_cases h : ltBest c.1 acc.1
    · have hstep : benchStep acc c = (some c.1, some c.2) := by simp [benchStep, h]
      rcases ih (benchStep acc c) with heq | ⟨p, hp, heq⟩
      · exact Or.inr ⟨c, List.mem_cons_self c cs, by rw [heq, hstep]⟩
      · exact Or.inr ⟨p, List.mem_cons_of_mem c hp, heq⟩
    · have hstep : benchStep acc c = acc := by simp [benchStep, h]
      rcases ih (benchStep acc c) with heq | ⟨p, hp, heq⟩
      · exact Or.inl (by rw [heq, hstep])
      · exact Or.inr ⟨p, List.mem_cons_of_mem c hp, heq⟩

/-- C4: for at least one repeat, run_benchmark succeeds, its reported elapsed
time is ≤ every individual repeat's elapsed time, the returned result is
exactly the one produced by the selected call, and the default repeat count
is 3. -/
theorem claim_C4_best_of_n (α : Type) (calls : List (ℚ × α)) (h : calls ≠ []) :
    (∃ r t, run_benchmark (calls.map Except.ok) = .ok (some (r, t)) ∧
      (∀ p ∈ calls, t ≤ p.1) ∧ (t, r) ∈ calls) ∧
    run_benchmark_default_repeats = 3 := by
  refine ⟨?_, rfl⟩
  obtain ⟨c, cs, rfl⟩ := List.exists_cons_of_ne_nil h
  have hprov := benchFold_provenance (c :: cs) ((none : Option ℚ), (none : Option α))
  have hmin := benchFold_min (c :: cs) ((none : Option ℚ), (none : Option α))
  rcases hprov with heq | ⟨p, hp, heq⟩
  · obtain ⟨m, hm, -⟩ := hmin c (List.mem_cons_self c cs)
    rw [heq] at hm
    exact absurd hm (by simp)
  · refine ⟨p.2, p.1, ?_, ?_, ?_⟩
    · unfold run_benchmark
      rw [benchLoop_map_ok, heq]
    · intro q hq
      obtain ⟨m, hm, hmle⟩ := hmin q hq
      rw [heq] at hm
      simp only [Option.some_inj] at hm
      rw [← hm] at hmle
      exact hmle
    · simpa using hp

theorem claim_C4_witness :
    ([((1:ℚ), true)] ≠ []) ∧
    ((∃ r t, run_benchmark ([((1:ℚ), true)].map Except.ok) = .ok (some (r, t)) ∧
      (∀ p ∈ [((1:ℚ), true)], t ≤ p.1) ∧ (t, r) ∈ [((1:ℚ), true)]) ∧
     run_benchmark_default_repeats = 3) :=
  ⟨by decide, claim_C4_best_of_n Bool [((1:ℚ), true)] (by decide)⟩

/-- The observable outcome of one spade-cli subprocess invocation: its return
code, stderr text, and its stdout JSON payload (modeled already parsed into
points / triangles / constraint edges). -/
structure SpadeRun where
  returncode : ℤ
  stderr : String
  out_points : List (ℚ × ℚ × ℚ)
  out_triangles : List (ℕ × ℕ × ℕ)
  out_edges : List (ℕ × ℕ)

/-- adapter_spade.triangulate: raises RuntimeError when the CLI exits with a
non-zero return code, otherwise returns the parsed mesh. -/
def triangulate (res : SpadeRun) :
    Except String (List (ℚ × ℚ × ℚ) × List (ℕ × ℕ × ℕ) × List (ℕ × ℕ)) :=
  if res.returncode ≠ 0 then .error ("Spade CLI failed: " ++ res.stderr)
  else .ok (res.out_points, res.out_triangles, res.out_edges)

lemma benchLoop_error {α : Type} (pre : List (ℚ × α)) (e : String)
    (post : List (Except String (ℚ × α))) (acc : Option ℚ × Option α) :
    benchLoop (pre.map Except.ok ++ .error e :: post) acc = .error e := by
  induction pre generalizing acc with
  | nil => rfl
  | cons c cs ih => simp [benchLoop, ih]

/-- C8: a non-zero CLI return code makes the adapter raise (no partial mesh is
returned), and the Benchmark Runner propagates the failure of any repeat
unmodified, aborting the remaining repeats (the calls after the failing one
are never examined, whatever they are). -/
theorem claim_C8_failure_propagation (α : Type) :
    (∀ res : SpadeRun, res.returncode ≠ 0 →
      triangulate res = .error ("Spade CLI failed: " ++ res.stderr)) ∧
    (∀ (pre : List (ℚ × α)) (e : String) (post : List (Except String (ℚ × α))),
      run_benchmark (pre.map Except.ok ++ .error e :: post) = .error e) := by
  constructor
  · intro res h
    unfold triangulate
    rw [if_pos h]
  · intro pre e post
    unfold run_benchmark
    rw [benchLoop_error]

theorem claim_C8_witness :
    ((1:ℤ) ≠ 0) ∧
    triangulate ⟨1, "boom", [], [], []⟩ = .error ("Spade CLI failed: " ++ "boom") ∧
    run_benchmark ([((1:ℚ), true)].map Except.ok ++
      .error "boom" :: [.ok ((2:ℚ), false)]) = .error "boom" :=
  ⟨by decide, (claim_C8_failure_propagation Bool).1 ⟨1, "boom", [], [], []⟩ (by decide),
    (claim_C8_failure_propagation Bool).2 [((1:ℚ), true)] "boom" [.ok ((2:ℚ), false)]⟩

/-- parse_loop of load_testcase: pairs consecutive numbers of one line
(`(coords[i], coords[i+1])` for i = 0, 2, 4, ...). With an odd number of
coordinates, `coords[i+1]` raises IndexError. The text-to-float tokenization
is modeled as already done (a line is a list of numbers). -/
def parse_loop : List ℚ → Except String (List (ℚ × ℚ))
  | [] => .ok []
  | [_] => .error "IndexError: list index out of range"
  | a :: b :: rest => (parse_loop rest).map (fun l => (a, b) :: l)

/-- load_testcase: the first line is the outer loop, the remaining non-blank
lines are the inner loops. Reading `lines[0]` of an empty file raises
IndexError. No validation of loop point counts is performed. -/
def load_testcase (lines : List (List ℚ)) :
    Except String (List (ℚ × ℚ) × List (List (ℚ × ℚ))) :=
  match lines with
  | [] => .error "IndexError: list index out of range"
  | l0 :: rest => do
    let outer ← parse_loop l0
    let inners ← (rest.filter (fun l => !l.isEmpty)).mapM parse_loop
    return (outer, inners)

/-- C5 counterexample: a one-point polygon loop is accepted by load_testcase
without any failure, so malformed loops with fewer than 3 points do not fail
fast anywhere before triangulation or metric computation. -/
theorem claim_C5_counterexample :
    load_testcase [[(0:ℚ), 0]] = .ok ([(0, 0)], []) ∧
    ([((0:ℚ), (0:ℚ))]).length < 3 :=
  ⟨rfl, by norm_num⟩

/-- C5 (amended): a mesh with an out-of-bounds triangle index makes
compute_mesh_quality fail with an explicit error (no statistics are
produced), but a polygon loop with fewer than 3 points is not validated:
load_testcase accepts it and passes it on. -/
theorem claim_C5_malformed_input (ps : List Point) (ts : List Tri)
    (h : ¬ validIdx ps ts) :
    compute_mesh_quality ps ts = .error "IndexError: triangle index out of bounds" ∧
    (∀ a b : ℚ, load_testcase [[a, b]] = .ok ([(a, b)], [])) := by
  constructor
  · unfold compute_mesh_quality
    rw [if_neg h]
  · intro a b
    rfl

theorem claim_C5_witness :
    (¬ validIdx [] [((0:ℕ), 0, 0)]) ∧
    compute_mesh_quality [] [((0:ℕ), 0, 0)]
      = .error "IndexError: triangle index out of bounds" ∧
    load_testcase [[(1:ℚ), 2]] = .ok ([(1, 2)], []) :=
  ⟨by decide, (claim_C5_malformed_input [] [((0:ℕ), 0, 0)] (by decide)).1,
    (claim_C5_malformed_input [] [((0:ℕ), 0, 0)] (by decide)).2 1 2⟩

/-- The mesh triple returned by an adapter call, as consumed by main. -/
structure MeshOut where
  points : List (ℚ × ℚ × ℚ)
  triangles : List (ℕ × ℕ × ℕ)
  lines : List (ℕ × ℕ)
deriving DecidableEq

/-- The parameters main passes to run_benchmark for one scenario. -/
structure BenchCall where
  outer : List (ℚ × ℚ)
  inner_loops : List (List (ℚ × ℚ))
  maxh : Option ℚ
  quality : String
  enforce_constraints : Bool

/-- One entry of the `results` list of main. A, B and C records carry no maxh
field; D records do. -/
structure ResultRec where
  test : String
  description : String
  maxh : Option ℚ
  num_triangles : ℕ
  time_sec : ℚ
  triangles_per_sec : ℚ
deriving DecidableEq

/-- Builds one results entry exactly as main does; the throughput is
`len(triangles) / t if t > 0 else 0`. -/
def mkResult (test desc : String) (mh : Option ℚ) (ntris : ℕ) (t : ℚ) : ResultRec :=
  ⟨test, desc, mh, ntris, t, if 0 < t then (ntris : ℚ) / t else 0⟩

/-- The unit square outer loop of tests A and B. -/
def unit_square : List (ℚ × ℚ) := [(0, 0), (1, 0), (1, 1), (0, 1)]

/-- The inner polygon of test B. -/
def inner_poly : List (ℚ × ℚ) := [(0.3, 0.3), (0.7, 0.3), (0.7, 0.7), (0.3, 0.7)]

/-- The `results` list built by main: scenarios A, B, C, then one D per sweep
size, in caller-supplied order. The benchmark execution (run_benchmark with
the loaded adapter) is abstracted as a function from call parameters to
(mesh, best elapsed time); VTU/metrics/CSV file writing is I/O and out of
scope. -/
def mainResults (runner : BenchCall → MeshOut × ℚ)
    (outer : List (ℚ × ℚ)) (inner_loops : List (List (ℚ × ℚ)))
    (sizes : List ℚ) : List ResultRec :=
  let ra := runner ⟨unit_square, [], none, "default", false⟩
  let rb := runner ⟨unit_square, [inner_poly], none, "default", true⟩
  let rc := runner ⟨outer, inner_loops, some 100, "moderate", true⟩
  mkResult "A" "unit_square_default" none ra.1.triangles.length ra.2 ::
  mkResult "B" "unit_square_with_inner" none rb.1.triangles.length rb.2 ::
  mkResult "C" "city_maxh_100" none rc.1.triangles.length rc.2 ::
  sizes.map (fun s =>
    let rd := runner ⟨outer, inner_loops, some s, "moderate", true⟩
    mkResult "D" ("city_maxh_" ++ toString s) (some s) rd.1.triangles.length rd.2)

/-- C6 counterexample: with the duplicate sweep [5, 5], the two D records at
sweep positions 0 and 1 are completely identical — scenario results carry the
battery letter and the size hint, but no index within the D sweep. -/
theorem claim_C6_counterexample :
    (mainResults (fun _ => (⟨[], [], []⟩, 1)) [] [] [5, 5])[3]?
      = (mainResults (fun _ => (⟨[], [], []⟩, 1)) [] [] [5, 5])[4]? ∧
    ((mainResults (fun _ => (⟨[], [], []⟩, 1)) [] [] [5, 5])[3]?).map (fun r => r.test)
      = some "D" := by
  constructor
  · rfl
  · rfl

/-- C6 (amended): the battery always produces exactly 3 + n scenario results,
in the fixed order A, B, C, then one D per sweep size preserving the caller
order; each record is tagged with its battery letter, and D records carry
their size hint (in maxh and in the description), but no positional index
within the sweep. -/
theorem claim_C6_battery_shape (runner : BenchCall → MeshOut × ℚ)
    (outer : List (ℚ × ℚ)) (inner_loops : List (List (ℚ × ℚ))) (sizes : List ℚ) :
    (mainResults runner outer inner_loops sizes).length = 3 + sizes.length ∧
    (mainResults runner outer inner_loops sizes).map (fun r => r.test)
      = "A" :: "B" :: "C" :: sizes.map (fun _ => "D") ∧
    ((mainResults runner outer inner_loops sizes).drop 3).map (fun r => r.maxh)
      = sizes.map (fun s => some s) ∧
    ((mainResults runner outer inner_loops sizes).drop 3).map (fun r => r.description)
      = sizes.map (fun s => "city_maxh_" ++ toString s) := by
  refine ⟨?_, ?_, ?_, ?_⟩
  · simp only [mainResults, List.length_cons, List.length_map]
    omega
  · simp only [mainResults, mkResult, List.map_cons, List.map_map]
    refine congrArg _ (congrArg _ (congrArg _ ?_))
    exact List.map_congr_left (fun s _ => rfl)
  · simp only [mainResults, mkResult, List.drop_succ_cons, List.drop_zero, List.map_map]
    exact List.map_congr_left (fun s _ => rfl)
  · simp only [mainResults, mkResult, List.drop_succ_cons, List.drop_zero, List.map_map]
    exact List.map_congr_left (fun s _ => rfl)

end MeshBench
